import Mathlib

/-!
Verification of the opencode-obsidian-sync synchronization engine.

The definitions below are shallow embeddings of the TypeScript source:
  * plugin/queue.ts      — durable write queue (QueueItem, readQueue, shouldDiscard)
  * plugin/obsidian.ts   — note sink client and queue processor (processQueue, available flag)
  * plugin/hooks.ts      — session tracker, deletion guard, rename cascade, event router
  * lib/splitter.ts      — splitIfNeeded document splitting

Strings that the code only stores and compares are kept as Lean `String`s;
the UUID identifier of a queue record is modelled as a `Nat` (only its
equality and ordering are ever consulted).  Markdown documents are modelled
as lists of newline-terminated lines.
-/

namespace Spec2Proof

/-- Operation kind of a durable queue record (`QueueItem["type"]` in plugin/queue.ts). -/
inductive OpType where
  | create
  | update
  | delete
deriving DecidableEq, Repr

/-- Durable queue record, mirroring `interface QueueItem` in plugin/queue.ts:
`{id, type, path, content, retries, createdAt}`. -/
structure QueueItem where
  id : Nat
  type : OpType
  path : String
  content : String
  retries : Nat
  createdAt : Nat
deriving DecidableEq, Repr

/-- `MAX_RETRIES` constant from plugin/queue.ts. -/
def MAX_RETRIES : Nat := 50

/-- `shouldDiscard` from plugin/queue.ts: `item.retries >= MAX_RETRIES`. -/
def shouldDiscard (item : QueueItem) : Bool :=
  MAX_RETRIES ≤ item.retries

/-- Stable insertion of a record into a list sorted by `createdAt`; the inserted
record goes after every strictly earlier record and before the first record
whose `createdAt` is not strictly earlier.  Building block of `readQueue`. -/
def insertItem (x : QueueItem) : List QueueItem → List QueueItem
  | [] => [x]
  | y :: ys => if y.createdAt < x.createdAt then y :: insertItem x ys else x :: y :: ys

/-- `readQueue` from plugin/queue.ts: reads every record of the queue directory
(the argument list, in directory-enumeration order) and sorts it with
`items.sort((a, b) => a.createdAt - b.createdAt)` — a stable sort keyed by
`createdAt` alone (ECMAScript `Array.prototype.sort` is stable). -/
def readQueue : List QueueItem → List QueueItem
  | [] => []
  | x :: xs => insertItem x (readQueue xs)

/-- Durable-queue mutation performed by the processor: `dequeue(id)` unlinks the
record file of `id`; `updateRetries(id)` rewrites that record with `retries + 1`
(plugin/queue.ts `dequeue` / `updateRetries`). -/
inductive QueueMut where
  | dequeueId (id : Nat)
  | bumpRetries (id : Nat)
deriving DecidableEq, Repr

/-- Effect of one durable-queue mutation on the stored records (store keyed by `id`). -/
def applyMut (store : List QueueItem) : QueueMut → List QueueItem
  | .dequeueId i => store.filter (fun r => r.id ≠ i)
  | .bumpRetries i =>
      store.map (fun r => if r.id = i then { r with retries := r.retries + 1 } else r)

/-- Transcript of one run of the `for` loop in `processQueue` (plugin/obsidian.ts):
the sink calls made, the durable-queue mutations issued, and the value of the
shared `available` flag when the loop ends (`true` means it was left as it was
on entry, which is `true` whenever the loop runs). -/
structure ProcResult where
  calls : List QueueItem
  muts : List QueueMut
  availAfter : Bool
deriving DecidableEq, Repr

/-- The `for (const item of items)` loop of `processQueue` in plugin/obsidian.ts,
with the sink (`processItem`, i.e. an Obsidian PUT or DELETE) abstracted as a
boolean oracle `sink`: a discarded item is dequeued with no sink call; a
successful item is dequeued; on the first failure the flag is cleared,
`updateRetries(item)` runs, and the function returns. -/
def processLoop (sink : QueueItem → Bool) : List QueueItem → ProcResult
  | [] => ⟨[], [], true⟩
  | i :: rest =>
    if shouldDiscard i then
      let r := processLoop sink rest
      ⟨r.calls, .dequeueId i.id :: r.muts, r.availAfter⟩
    else if sink i then
      let r := processLoop sink rest
      ⟨i :: r.calls, .dequeueId i.id :: r.muts, r.availAfter⟩
    else
      ⟨[i], [.bumpRetries i.id], false⟩

/-- Number of `dequeue` mutations for a given id in a mutation transcript. -/
def dequeueCount (muts : List QueueMut) (i : Nat) : Nat :=
  muts.countP (fun m => m = .dequeueId i)

/-- Slice of a string by character positions, mirroring JavaScript
`s.slice(a, b)` for `0 ≤ a ≤ b`. -/
def strSlice (s : String) (a b : Nat) : String :=
  String.mk ((s.toList.drop a).take (b - a))

/-- Whether `pat` is an initial segment of `l` (used by `replaceFirst`). -/
def isPre : List Char → List Char → Bool
  | [], _ => true
  | _ :: _, [] => false
  | p :: ps, c :: cs => p = c && isPre ps cs

/-- Worker for `replaceFirst`: replaces the first occurrence of `pat`. -/
def replaceFirstAux (pat repl : List Char) : List Char → List Char
  | [] => []
  | c :: cs =>
    if isPre pat (c :: cs) then repl ++ (c :: cs).drop pat.length
    else c :: replaceFirstAux pat repl cs

/-- JavaScript `s.replace(pat, repl)` with a string pattern: replaces only the
first occurrence of `pat` (or returns `s` unchanged when absent). -/
def replaceFirst (s pat repl : String) : String :=
  String.mk (replaceFirstAux pat.toList repl.toList s.toList)

/-- Characters removed by `sessionSlug`'s `.replace(/[<>:"/\\|?*#^[\]]/g, "")`. -/
def UNSAFE_CHARS : List Char :=
  ['<', '>', ':', '"', '/', '\\', '|', '?', '*', '#', '^', '[', ']']

/-- Separator class of `sessionSlug`'s `.split(/[\s_-]+/)`. -/
def isSepChar (c : Char) : Bool :=
  c.isWhitespace || c = '_' || c = '-'

/-- Splits a character list into the maximal runs of non-separator characters
(the nonempty chunks of the JavaScript split; empty chunks are dropped, as the
source immediately filters them out with `w.length > 0`). -/
def wordsAux : List Char → List Char → List (List Char)
  | acc, [] => if acc.isEmpty then [] else [acc.reverse]
  | acc, c :: cs =>
    if isSepChar c then
      if acc.isEmpty then wordsAux [] cs else acc.reverse :: wordsAux [] cs
    else wordsAux (c :: acc) cs

/-- `STOP_WORDS` set from plugin/hooks.ts. -/
def stopWordsHooks : List String :=
  ["a", "an", "the", "and", "or", "but", "for", "in", "on", "at", "to", "of", "with", "is", "was",
   "are", "were", "be", "been", "being", "have", "has", "had", "do", "does", "did", "will", "would",
   "could", "should", "may", "might", "shall", "can", "this", "that", "these", "those", "it", "its",
   "my", "your", "our", "their", "his", "her", "from", "by", "about", "into", "through", "during",
   "before", "after", "above", "below", "between", "under", "again", "further", "then", "once",
   "here", "there", "when", "where", "why", "how", "all", "each", "every", "both", "few", "more",
   "most", "other", "some", "such", "no", "nor", "not", "only", "own", "same", "so", "than", "too",
   "very", "just", "because", "as", "until", "while", "also", "i", "me", "we", "you", "he", "she",
   "they", "them", "what", "which", "who", "whom", "let", "lets", "using", "use", "need", "needs"]

/-- Lowercase, strip the unsafe characters, split into words, and drop empty
words and stop words — the word pipeline of `sessionSlug` in plugin/hooks.ts
(words kept as character lists). -/
def filteredWords (raw : String) : List (List Char) :=
  let lowered := raw.data.map Char.toLower
  let stripped := lowered.filter (fun c => !(UNSAFE_CHARS.contains c))
  (wordsAux [] stripped).filter
    (fun w => decide (0 < w.length) && !(stopWordsHooks.contains (String.mk w)))

/-- `words.join("-")`: the words joined by single dashes. -/
def joinDash : List (List Char) → List Char
  | [] => []
  | [w] => w
  | w :: v :: vs => w ++ '-' :: joinDash (v :: vs)

/-- The `replace` of the regex "dash-run" (one or more dashes, global) by a
single dash in `sessionSlug`: collapses every run of dashes to one dash. -/
def collapseDashes : List Char → List Char
  | [] => []
  | [c] => [c]
  | c :: d :: rest =>
    if c = '-' && d = '-' then collapseDashes (d :: rest)
    else c :: collapseDashes (d :: rest)

/-- Removes a single leading dash. -/
def stripLeadDash (l : List Char) : List Char :=
  if l.head? = some '-' then l.tail else l

/-- Removes a single trailing dash. -/
def stripTrailDash (l : List Char) : List Char :=
  if l.getLast? = some '-' then l.dropLast else l

/-- The `replace` of the regex "leading dash or trailing dash" (global) by the
empty string in `sessionSlug`: removes one leading and one trailing dash (the
global scan matches the dash at position 0 and a final dash once each). -/
def trimOneDashes (l : List Char) : List Char :=
  stripTrailDash (stripLeadDash l)

/-- Whether a character list is free of adjacent double dashes. -/
def noDoubleDash : List Char → Bool
  | [] => true
  | [_] => true
  | c :: d :: rest => !(c = '-' && d = '-') && noDoubleDash (d :: rest)

/-- Index of the last occurrence of `c` in `l` (JavaScript `lastIndexOf`,
`none` standing for `-1`). -/
def lastIdxOf (c : Char) (l : List Char) : Option Nat :=
  match l.reverse.findIdx? (· = c) with
  | none => none
  | some j => some (l.length - 1 - j)

/-- Length cap of `sessionSlug`: keep at most 40 characters, and cut at the
last dash of the truncation when that dash sits past position 10. -/
def truncateSlug (joined : List Char) : List Char :=
  if joined.length ≤ 40 then joined
  else
    match lastIdxOf '-' (joined.take 40) with
    | some i => if 10 < i then (joined.take 40).take i else joined.take 40
    | none => joined.take 40

/-- Argument record of `sessionSlug({title?, slug?, id})`; `slugF` is the
session's stored `slug` field. -/
structure SlugInput where
  title : Option String
  slugF : Option String
  id : String
deriving DecidableEq, Repr

/-- `session.title || session.slug || session.id.slice(0, 12)` — JavaScript
`||` falls through on the empty string. -/
def rawTitle (title slugF : Option String) (id : String) : String :=
  let t := title.getD ""
  if t ≠ "" then t
  else
    let sl := slugF.getD ""
    if sl ≠ "" then sl else strSlice id 0 12

/-- `sessionSlug` from plugin/hooks.ts: the word pipeline, the dash join and
cleanup, then the length cap. -/
def sessionSlug (s : SlugInput) : String :=
  let raw := rawTitle s.title s.slugF s.id
  let joined := trimOneDashes (collapseDashes (joinDash (filteredWords raw)))
  String.mk (truncateSlug joined)

/-- `notePath` from plugin/hooks.ts:
`10-Projects/<project>/sessions/<yyyy-mm>/<dd>-<slug>/<suffix>.md`. -/
def notePath (projectName date slug suffix : String) : String :=
  let yearMonth := strSlice date 0 7
  let day := strSlice date 8 10
  s!"10-Projects/{projectName}/sessions/{yearMonth}/{day}-{slug}/{suffix}.md"

/-- In-memory tracker entry, mirroring `interface SessionTracker` in
plugin/hooks.ts. -/
structure SessionTracker where
  projectId : String
  projectName : String
  slug : String
  summaryPath : String
  messageCount : Nat
  lastMessageSync : Nat
  foundInStorage : Bool
deriving DecidableEq, Repr

/-- An `enqueue(type, path, content)` intent recorded against the durable queue. -/
structure EnqueueOp where
  op : OpType
  path : String
  content : String
deriving DecidableEq, Repr

/-- `handleRenameIfNeeded` from plugin/hooks.ts: recompute the slug from the
new title; when unchanged do nothing; otherwise enqueue deletes for the old
summary path, the old raw-log path and the 20 possible raw-log part paths at
the old slug, then update `slug` and `summaryPath` in the tracker.  Returns the
updated tracker, the enqueued operations in order, and the boolean result. -/
def handleRenameIfNeeded (tracker : SessionTracker) (newTitle created : String) :
    SessionTracker × List EnqueueOp × Bool :=
  let newSlug := sessionSlug ⟨some newTitle, none, ""⟩
  if newSlug = tracker.slug then (tracker, [], false)
  else
    let oldSlug := tracker.slug
    let projectName := tracker.projectName
    let ops :=
      ⟨.delete, tracker.summaryPath, ""⟩ ::
      ⟨.delete, notePath projectName created oldSlug "raw-log", ""⟩ ::
      (List.range 20).map (fun j =>
        ⟨.delete, notePath projectName created oldSlug ("raw-log-part-" ++ toString (j + 1)), ""⟩)
    ({ tracker with
        slug := newSlug
        summaryPath := notePath projectName created newSlug "summary" }, ops, true)

/-- `DELETION_THRESHOLD` from plugin/hooks.ts. -/
def DELETION_THRESHOLD : Nat := 3

/-- The `for (let i = 1; i <= 20; i++)` loop of `moveToTrash`: probe
`raw-log-part-i`, stop at the first absent part, otherwise enqueue a quarantine
copy and a delete of the original. -/
def trashPartsLoop (get : String → Option String) (summaryPath : String) :
    Nat → Nat → List EnqueueOp
  | 0, _ => []
  | fuel + 1, i =>
    let partPath := replaceFirst summaryPath "/summary.md" ("/raw-log-part-" ++ toString i ++ ".md")
    match get partPath with
    | none => []
    | some content =>
      ⟨.create, replaceFirst partPath "/sessions/" "/trash/", content⟩ ::
      ⟨.delete, partPath, ""⟩ ::
      trashPartsLoop get summaryPath fuel (i + 1)

/-- `moveToTrash` from plugin/hooks.ts, with the sink reads (`obsidianGet`)
abstracted as `get`: for each present note, enqueue a `create` of its content
at the quarantine path (`/sessions/` replaced by `/trash/`) followed by a
`delete` of the original path. -/
def moveToTrashOps (get : String → Option String) (tracker : SessionTracker) : List EnqueueOp :=
  let summaryPath := tracker.summaryPath
  let s1 := match get summaryPath with
    | some content =>
        [⟨.create, replaceFirst summaryPath "/sessions/" "/trash/", content⟩,
         ⟨.delete, summaryPath, ""⟩]
    | none => []
  let rawLogPath := replaceFirst summaryPath "/summary.md" "/raw-log.md"
  let s2 := match get rawLogPath with
    | some content =>
        [⟨.create, replaceFirst rawLogPath "/sessions/" "/trash/", content⟩,
         ⟨.delete, rawLogPath, ""⟩]
    | none => []
  s1 ++ s2 ++ trashPartsLoop get summaryPath 20 1

/-- One session's step of the `pollForDeletions` loop in plugin/hooks.ts.
`readOk` is whether `readSession` returned a session; `counter` is the entry of
the `deletionFailures` map (`none` = absent = 0).  Returns the new tracker
entry (`none` when the session is dropped from the map), the new counter entry,
and the operations enqueued by `moveToTrash`. -/
def pollStep (readOk : Bool) (get : String → Option String)
    (tracker : SessionTracker) (counter : Option Nat) :
    Option SessionTracker × Option Nat × List EnqueueOp :=
  if readOk then
    (some { tracker with foundInStorage := true }, none, [])
  else if tracker.foundInStorage then
    let failures := counter.getD 0 + 1
    if DELETION_THRESHOLD ≤ failures then
      (none, none, moveToTrashOps get tracker)
    else
      (some tracker, some failures, [])
  else
    (some tracker, counter, [])

/-- The handlers wired in the `switch` of `handleEvent` in plugin/hooks.ts. -/
inductive HandlerId where
  | sessionCreatedHandler
  | sessionUpdatedHandler
  | sessionIdleHandler
  | messageUpdatedHandler
deriving DecidableEq, Repr

/-- `handleEvent` from plugin/hooks.ts: the `switch (event.type)` selecting
which handler is invoked; every type outside the four cases falls through the
switch and nothing happens (`none`). -/
def handleEvent (eventType : String) : Option HandlerId :=
  if eventType = "session.created" then some .sessionCreatedHandler
  else if eventType = "session.updated" then some .sessionUpdatedHandler
  else if eventType = "session.idle" then some .sessionIdleHandler
  else if eventType = "message.updated" then some .messageUpdatedHandler
  else none

/-- Events that touch (or could touch) the module-level `available` flag of
plugin/obsidian.ts: a completed `healthCheck` (which assigns `available =
res.ok`, or `false` on an exception), a write/delete dispatched by
`processQueue` (whose failure branch assigns `available = false`), and a
completed `obsidianGet` read (which never assigns the flag). -/
inductive SinkEvent where
  | healthCheckDone (ok : Bool)
  | processDispatch (ok : Bool)
  | readDone (ok : Bool)
deriving DecidableEq, Repr

/-- Transition of the `available` flag of plugin/obsidian.ts under one sink
event. -/
def stepAvailable (available : Bool) : SinkEvent → Bool
  | .healthCheckDone ok => ok
  | .processDispatch ok => if ok then available else false
  | .readDone _ => available

/-- Result record of `splitIfNeeded` (lib/splitter.ts); a markdown document is
modelled as its list of newline-terminated lines. -/
structure SplitResult where
  markdown : List String
  partNumber : Nat
  totalParts : Nat
deriving DecidableEq, Repr

/-- Finds the first line equal to `---` in a line list; returns the lines
before it and the lines after it. -/
def findCloseLine : List String → Option (List String × List String)
  | [] => none
  | l :: ls =>
    if l = "---" then some ([], ls)
    else
      match findCloseLine ls with
      | some (fm, body) => some (l :: fm, body)
      | none => none

/-- The frontmatter match of `splitIfNeeded`: the regex anchored at the start
of the document matching an opening `---` line, a lazily matched (hence
nonempty) run of lines, and the first closing `---` line; yields the
frontmatter lines and the body lines.  A document whose second line already
closes the block (no line in between) does not match, because the lazy group
plus its trailing newline cannot be empty. -/
def matchFrontmatter : List String → Option (List String × List String)
  | "---" :: f0 :: rest =>
    (match findCloseLine rest with
     | some (fmTail, body) => some (f0 :: fmTail, body)
     | none => none)
  | _ => none

/-- Whether a line begins a message section, mirroring the regex alternatives
`### User (` and `### Assistant (` anchored at a line start. -/
def isMarkerLine (l : String) : Bool :=
  isPre "### User (".data l.data || isPre "### Assistant (".data l.data

/-- Worker for `splitSections`: `acc` holds the current chunk reversed. -/
def splitSectionsAux (acc : List String) : List String → List (List String)
  | [] => [acc.reverse]
  | l :: ls =>
    if isMarkerLine l then acc.reverse :: splitSectionsAux [l] ls
    else splitSectionsAux (l :: acc) ls

/-- `body.split` on the zero-width lookahead before each message marker: the
body's lines grouped into chunks, a new chunk starting at every marker line
except a marker on the very first line (JavaScript `split` does not cut at a
zero-width match at position 0). -/
def splitSections : List String → List (List String)
  | [] => []
  | l :: ls => splitSectionsAux [l] ls

/-- The `for (let i = 0; i < totalParts; i++)` loop of `splitIfNeeded`:
build each part from its slice of the message sections, append the
`part:`/`total_parts:` keys to the frontmatter, and keep the header section in
part 1 only. -/
def splitParts (fm header : List String) (secs : List (List String)) (maxM : Nat) :
    List SplitResult :=
  let n := secs.length
  let totalParts := (n + maxM - 1) / maxM
  (List.range totalParts).map (fun i =>
    let chunk := ((secs.drop (i * maxM)).take maxM).flatten
    let partFm := fm ++ [s!"part: {i + 1}", s!"total_parts: {totalParts}"]
    let partBody := (if i = 0 then header else []) ++ chunk
    ⟨"---" :: (partFm ++ ("---" :: partBody)), i + 1, totalParts⟩)

/-- `splitIfNeeded` from lib/splitter.ts over the line model: no frontmatter,
or at most `maxMessages` message sections, yields the document unchanged as a
single part; otherwise the sections are chunked into
`ceil(sections / maxMessages)` parts. -/
def splitIfNeeded (markdown : List String) (maxMessages : Nat) : List SplitResult :=
  match matchFrontmatter markdown with
  | none => [⟨markdown, 1, 1⟩]
  | some (fm, body) =>
    let sections0 := splitSections body
    let header := sections0.headD []
    let secs := sections0.tail
    if secs.length ≤ maxMessages then [⟨markdown, 1, 1⟩]
    else splitParts fm header secs maxMessages

/-! ## Theorems -/

/-- Claim C4: for every tracked session whose `seenInUpstream` flag
(`foundInStorage`) is false, a failed upstream read during the deletion poll
causes no state change at all: the failure counter is not created or
incremented, the tracker entry is unchanged, and no trash operation is emitted. -/
theorem poll_unseen_no_change (get : String → Option String)
    (tracker : SessionTracker) (counter : Option Nat)
    (h : tracker.foundInStorage = false) :
    pollStep false get tracker counter = (some tracker, counter, []) := by
  simp [pollStep, h]

/-- Witness for `poll_unseen_no_change` at a concrete tracker and counter. -/
theorem poll_unseen_no_change_witness :
    (SessionTracker.mk "p1" "proj" "fix-it" "10-Projects/proj/sessions/2026-02/14-fix-it/summary.md" 0 0 false).foundInStorage = false ∧
    pollStep false (fun _ => none)
      (SessionTracker.mk "p1" "proj" "fix-it" "10-Projects/proj/sessions/2026-02/14-fix-it/summary.md" 0 0 false) (some 1) =
      (some (SessionTracker.mk "p1" "proj" "fix-it" "10-Projects/proj/sessions/2026-02/14-fix-it/summary.md" 0 0 false), some 1, []) :=
  ⟨rfl, poll_unseen_no_change (fun _ => none) _ (some 1) rfl⟩

/-- Claim C7 (corrected): the `available` flag of the sink client is left
untouched by read calls, is cleared by a failed write/delete dispatched from
the processor and by a failed health check, and moves from `false` to `true`
only through a successful health check. -/
theorem available_flag_transitions :
    (∀ (a ok : Bool), stepAvailable a (.readDone ok) = a) ∧
    (∀ a : Bool, stepAvailable a (.processDispatch false) = false) ∧
    (∀ a : Bool, stepAvailable a (.healthCheckDone false) = false) ∧
    (∀ e : SinkEvent, stepAvailable false e = true ↔ e = .healthCheckDone true) := by
  refine ⟨fun a ok => rfl, fun a => rfl, fun a => rfl, fun e => ?_⟩
  cases e with
  | healthCheckDone ok => cases ok <;> simp [stepAvailable]
  | processDispatch ok => cases ok <;> simp [stepAvailable]
  | readDone ok => simp [stepAvailable]

/-- Counterexample to claim C7 as stated: a failed read (`obsidianGet`
returning null) does not set the `available` flag to false — the flag stays
`true`. -/
theorem available_flag_read_failure_cex :
    stepAvailable true (SinkEvent.readDone false) = true := rfl

/-- Claim C8 (corrected): `handleEvent` dispatches exactly the four event
types `session.created`, `session.updated`, `session.idle` and
`message.updated` to their handlers, and every other type — including
`session.compacting`, which is served by a separate plugin hook — invokes no
handler. -/
theorem handle_event_dispatch :
    handleEvent "session.created" = some .sessionCreatedHandler ∧
    handleEvent "session.updated" = some .sessionUpdatedHandler ∧
    handleEvent "session.idle" = some .sessionIdleHandler ∧
    handleEvent "message.updated" = some .messageUpdatedHandler ∧
    (∀ t : String, t ≠ "session.created" → t ≠ "session.updated" →
      t ≠ "session.idle" → t ≠ "message.updated" → handleEvent t = none) := by
  refine ⟨rfl, rfl, rfl, rfl, fun t h1 h2 h3 h4 => ?_⟩
  simp [handleEvent, h1, h2, h3, h4]

/-- Witness for `handle_event_dispatch`: an arbitrary unrecognized type is a
no-op for `handleEvent`. -/
theorem handle_event_dispatch_witness :
    handleEvent "storage.write" = none :=
  handle_event_dispatch.2.2.2.2 "storage.write"
    (by decide) (by decide) (by decide) (by decide)

/-- Counterexample to claim C8 as stated: `session.compacting` is listed as a
recognized type dispatched by the single entry point, but `handleEvent`
invokes no handler for it (it is served by a separate dedicated plugin hook). -/
theorem handle_event_compacting_cex :
    handleEvent "session.compacting" = none := rfl

/-- Claim C2: a poll step triggers the trash sequence (session dropped from
the tracker map and the counter map, quarantine/delete operations emitted) iff
the read failed, the session had been seen upstream, and the consecutive
failure count reaches exactly 3; a successful read resets the counter and sets
the seen flag; counters stay below 3, so the hypothesis is an invariant. -/
theorem deletion_guard_threshold (readOk : Bool) (get : String → Option String)
    (tracker : SessionTracker) (counter : Option Nat)
    (hc : counter.getD 0 < 3) :
    ((pollStep readOk get tracker counter).1 = none ↔
      readOk = false ∧ tracker.foundInStorage = true ∧ counter.getD 0 + 1 = 3) ∧
    ((pollStep readOk get tracker counter).1 = none →
      (pollStep readOk get tracker counter).2.1 = none ∧
      (pollStep readOk get tracker counter).2.2 = moveToTrashOps get tracker) ∧
    (readOk = true →
      pollStep readOk get tracker counter =
        (some { tracker with foundInStorage := true }, none, [])) ∧
    ((pollStep readOk get tracker counter).2.1.getD 0 < 3) ∧
    (∀ content, get tracker.summaryPath = some content →
      (pollStep readOk get tracker counter).1 = none →
      EnqueueOp.mk .create (replaceFirst tracker.summaryPath "/sessions/" "/trash/") content
          ∈ (pollStep readOk get tracker counter).2.2 ∧
      EnqueueOp.mk .delete tracker.summaryPath "" ∈ (pollStep readOk get tracker counter).2.2) := by
  cases readOk with
  | true =>
    refine ⟨?_, ?_, ?_, ?_, ?_⟩ <;> simp [pollStep]
  | false =>
    cases hfnd : tracker.foundInStorage with
    | false =>
      refine ⟨?_, ?_, ?_, ?_, ?_⟩ <;> simp [pollStep, hfnd]
      exact hc
    | true =>
      by_cases h3 : DELETION_THRESHOLD ≤ counter.getD 0 + 1
      · have hval : pollStep false get tracker counter =
            (none, none, moveToTrashOps get tracker) := by
          simp [pollStep, hfnd, h3]
        have hexact : counter.getD 0 + 1 = 3 := by
          simp [DELETION_THRESHOLD] at h3; omega
        refine ⟨?_, ?_, ?_, ?_, ?_⟩
        · rw [hval]; simp [hfnd, hexact]
        · rw [hval]; exact fun _ => ⟨rfl, rfl⟩
        · simp
        · rw [hval]; simp
        · intro content hget _hnone
          rw [hval]; simp [moveToTrashOps, hget]
      · have hval : pollStep false get tracker counter =
            (some tracker, some (counter.getD 0 + 1), []) := by
          simp [pollStep, hfnd, h3]
        have hne : ¬ (counter.getD 0 + 1 = 3) := by
          simp [DELETION_THRESHOLD] at h3; omega
        refine ⟨?_, ?_, ?_, ?_, ?_⟩
        · rw [hval]; simp [hne]
        · rw [hval]; simp
        · simp
        · rw [hval]
          simp [DELETION_THRESHOLD] at h3 ⊢
          omega
        · rw [hval]; simp

/-- Witness for `deletion_guard_threshold`: a session seen upstream with two
recorded failures is trashed on the third failed read. -/
theorem deletion_guard_threshold_witness :
    (some 2 : Option Nat).getD 0 < 3 ∧
    (pollStep false (fun _ => none)
      (SessionTracker.mk "p1" "proj" "fix-it"
        "10-Projects/proj/sessions/2026-02/14-fix-it/summary.md" 0 0 true)
      (some 2)).1 = none :=
  ⟨by decide,
    (deletion_guard_threshold false (fun _ => none)
      (SessionTracker.mk "p1" "proj" "fix-it"
        "10-Projects/proj/sessions/2026-02/14-fix-it/summary.md" 0 0 true)
      (some 2) (by decide)).1.mpr ⟨rfl, rfl, by decide⟩⟩

/-- Claim C6: the rename cascade recomputes the slug from the new title; when
it is unchanged nothing happens; when it differs, the cascade enqueues exactly
the 22 delete operations for the old summary path, the old raw-log path and
the 20 bounded raw-log part paths at the old slug (creates or updates are
never enqueued), and updates the tracker's slug and summary path in place. -/
theorem rename_cascade (tracker : SessionTracker) (newTitle created : String) :
    (sessionSlug ⟨some newTitle, none, ""⟩ = tracker.slug →
      handleRenameIfNeeded tracker newTitle created = (tracker, [], false)) ∧
    (sessionSlug ⟨some newTitle, none, ""⟩ ≠ tracker.slug →
      handleRenameIfNeeded tracker newTitle created =
        ({ tracker with
            slug := sessionSlug ⟨some newTitle, none, ""⟩
            summaryPath := notePath tracker.projectName created
              (sessionSlug ⟨some newTitle, none, ""⟩) "summary" },
          ⟨.delete, tracker.summaryPath, ""⟩ ::
          ⟨.delete, notePath tracker.projectName created tracker.slug "raw-log", ""⟩ ::
          (List.range 20).map (fun j =>
            ⟨.delete, notePath tracker.projectName created tracker.slug
              ("raw-log-part-" ++ toString (j + 1)), ""⟩), true) ∧
      (∀ op ∈ (handleRenameIfNeeded tracker newTitle created).2.1, op.op = OpType.delete) ∧
      (handleRenameIfNeeded tracker newTitle created).2.1.length = 22) := by
  constructor
  · intro heq
    simp [handleRenameIfNeeded, heq]
  · intro hne
    have hval : handleRenameIfNeeded tracker newTitle created =
        ({ tracker with
            slug := sessionSlug ⟨some newTitle, none, ""⟩
            summaryPath := notePath tracker.projectName created
              (sessionSlug ⟨some newTitle, none, ""⟩) "summary" },
          ⟨.delete, tracker.summaryPath, ""⟩ ::
          ⟨.delete, notePath tracker.projectName created tracker.slug "raw-log", ""⟩ ::
          (List.range 20).map (fun j =>
            ⟨.delete, notePath tracker.projectName created tracker.slug
              ("raw-log-part-" ++ toString (j + 1)), ""⟩), true) := by
      simp [handleRenameIfNeeded, hne]
    refine ⟨hval, ?_, ?_⟩
    · intro op hop
      rw [hval] at hop
      simp only [List.mem_cons, List.mem_map] at hop
      rcases hop with h | h | ⟨j, _, h⟩ <;> subst h <;> rfl
    · rw [hval]
      simp

/-- Witness for `rename_cascade`: a concrete rename from slug `old` reports a
performed rename. -/
theorem rename_cascade_witness :
    sessionSlug ⟨some "Completely Different Title", none, ""⟩ ≠ "old" ∧
    (handleRenameIfNeeded
      (SessionTracker.mk "p" "proj" "old"
        "10-Projects/proj/sessions/2026-02/14-old/summary.md" 0 0 true)
      "Completely Different Title" "2026-02-14").2.2 = true := by
  have h := (rename_cascade
    (SessionTracker.mk "p" "proj" "old"
      "10-Projects/proj/sessions/2026-02/14-old/summary.md" 0 0 true)
    "Completely Different Title" "2026-02-14").2 (by decide)
  exact ⟨by decide, by rw [h.1]⟩

/-! ### Queue ordering (C5) -/

lemma insertItem_perm (x : QueueItem) (l : List QueueItem) :
    List.Perm (insertItem x l) (x :: l) := by
  induction l with
  | nil => rfl
  | cons y ys ih =>
    by_cases h : y.createdAt < x.createdAt
    · simp only [insertItem, if_pos h]
      exact (ih.cons y).trans (List.Perm.swap x y ys)
    · simp [insertItem, if_neg h]

lemma readQueue_perm (l : List QueueItem) : List.Perm (readQueue l) l := by
  induction l with
  | nil => rfl
  | cons x xs ih => exact (insertItem_perm x (readQueue xs)).trans (ih.cons x)

lemma insertItem_sorted (x : QueueItem) (l : List QueueItem)
    (h : l.Pairwise (fun a b => a.createdAt ≤ b.createdAt)) :
    (insertItem x l).Pairwise (fun a b => a.createdAt ≤ b.createdAt) := by
  induction l with
  | nil => simp [insertItem]
  | cons y ys ih =>
    rcases List.pairwise_cons.mp h with ⟨hy, hys⟩
    by_cases hlt : y.createdAt < x.createdAt
    · simp only [insertItem, if_pos hlt]
      rw [List.pairwise_cons]
      refine ⟨?_, ih hys⟩
      intro z hz
      rcases List.mem_cons.mp ((insertItem_perm x ys).mem_iff.mp hz) with rfl | hz2
      · exact Nat.le_of_lt hlt
      · exact hy z hz2
    · simp only [insertItem, if_neg hlt]
      rw [List.pairwise_cons]
      refine ⟨?_, h⟩
      intro z hz
      rcases List.mem_cons.mp hz with rfl | hz2
      · exact Nat.le_of_not_lt hlt
      · exact Nat.le_trans (Nat.le_of_not_lt hlt) (hy z hz2)

lemma readQueue_sorted (l : List QueueItem) :
    (readQueue l).Pairwise (fun a b => a.createdAt ≤ b.createdAt) := by
  induction l with
  | nil => simp [readQueue]
  | cons x xs ih => exact insertItem_sorted x (readQueue xs) ih

lemma insertItem_filter_eq (x : QueueItem) (l : List QueueItem) (t : Nat) :
    (insertItem x l).filter (fun r => r.createdAt == t) =
      if x.createdAt = t then x :: l.filter (fun r => r.createdAt == t)
      else l.filter (fun r => r.createdAt == t) := by
  induction l with
  | nil => by_cases h : x.createdAt = t <;> simp [insertItem, h]
  | cons y ys ih =>
    by_cases hy : y.createdAt < x.createdAt
    · by_cases ht : x.createdAt = t
      · subst ht
        have hyt : (y.createdAt == x.createdAt) = false := by simp; omega
        simp [insertItem, hy, List.filter_cons, hyt, ih]
      · simp [insertItem, hy, List.filter_cons, ih, ht]
    · by_cases ht : x.createdAt = t
      · subst ht
        simp [insertItem, hy, List.filter_cons]
      · simp [insertItem, hy, List.filter_cons, ht]

lemma readQueue_stable_filter (l : List QueueItem) (t : Nat) :
    (readQueue l).filter (fun r => r.createdAt == t) =
      l.filter (fun r => r.createdAt == t) := by
  induction l with
  | nil => rfl
  | cons x xs ih =>
    simp only [readQueue]
    rw [insertItem_filter_eq]
    by_cases ht : x.createdAt = t <;> simp [ht, ih, List.filter_cons]

/-- Claim C5 (corrected): `readQueue` returns all stored records as a
permutation sorted ascending by `createdAt` alone; records with equal
`createdAt` keep their relative storage-enumeration order (stable sort) — the
`id` is not consulted. -/
theorem read_queue_sorted_stable (l : List QueueItem) :
    List.Perm (readQueue l) l ∧
    (readQueue l).Pairwise (fun a b => a.createdAt ≤ b.createdAt) ∧
    (∀ t : Nat, (readQueue l).filter (fun r => r.createdAt == t) =
      l.filter (fun r => r.createdAt == t)) :=
  ⟨readQueue_perm l, readQueue_sorted l, fun t => readQueue_stable_filter l t⟩

/-- Counterexample to claim C5 as stated: two records with equal `createdAt`
are returned in storage order, not ascending `id` order, so the claimed
`(createdAt, id)` ordering fails. -/
theorem read_queue_id_order_cex :
    ¬ ((readQueue
        [QueueItem.mk 2 .create "a.md" "" 0 5, QueueItem.mk 1 .create "b.md" "" 0 5]).Pairwise
       (fun a b => a.createdAt < b.createdAt ∨
         (a.createdAt = b.createdAt ∧ a.id < b.id))) := by
  intro h
  have heq : readQueue
      [QueueItem.mk 2 .create "a.md" "" 0 5, QueueItem.mk 1 .create "b.md" "" 0 5] =
      [QueueItem.mk 2 .create "a.md" "" 0 5, QueueItem.mk 1 .create "b.md" "" 0 5] := by
    simp [readQueue, insertItem]
  rw [heq] at h
  rcases List.pairwise_cons.mp h with ⟨hrel, _⟩
  rcases hrel (QueueItem.mk 1 .create "b.md" "" 0 5) (by simp) with h1 | ⟨_, h2⟩
  · simp at h1
  · simp at h2

/-! ### Processor loop (C1, C3) -/

lemma processLoop_all_ok (sink : QueueItem → Bool) (items : List QueueItem)
    (h : ∀ i ∈ items, shouldDiscard i = true ∨ sink i = true) :
    processLoop sink items =
      ⟨items.filter (fun i => !(shouldDiscard i)),
       items.map (fun i => QueueMut.dequeueId i.id), true⟩ := by
  induction items with
  | nil => rfl
  | cons i rest ih =>
    have hrest := ih (fun j hj => h j (List.mem_cons_of_mem i hj))
    by_cases hd : shouldDiscard i = true
    · simp [processLoop, hd, hrest, List.filter_cons]
    · have hs : sink i = true := (h i (List.mem_cons_self i rest)).resolve_left hd
      simp [processLoop, hd, hs, hrest, List.filter_cons]

lemma processLoop_fail_split (sink : QueueItem → Bool)
    (pre post : List QueueItem) (k : QueueItem)
    (hpre : ∀ i ∈ pre, shouldDiscard i = true ∨ sink i = true)
    (hk1 : shouldDiscard k = false) (hk2 : sink k = false) :
    processLoop sink (pre ++ k :: post) =
      ⟨pre.filter (fun i => !(shouldDiscard i)) ++ [k],
       pre.map (fun i => QueueMut.dequeueId i.id) ++ [QueueMut.bumpRetries k.id],
       false⟩ := by
  induction pre with
  | nil => simp [processLoop, hk1, hk2]
  | cons i rest ih =>
    have hrest := ih (fun j hj => hpre j (List.mem_cons_of_mem i hj))
    by_cases hd : shouldDiscard i = true
    · simp [processLoop, hd, hrest, List.filter_cons]
    · have hs : sink i = true := (hpre i (List.mem_cons_self i rest)).resolve_left hd
      simp [processLoop, hd, hs, hrest, List.filter_cons]

lemma processLoop_cases (sink : QueueItem → Bool) (items : List QueueItem) :
    (∀ i ∈ items, shouldDiscard i = true ∨ sink i = true) ∨
    ∃ pre k post, items = pre ++ k :: post ∧
      (∀ i ∈ pre, shouldDiscard i = true ∨ sink i = true) ∧
      shouldDiscard k = false ∧ sink k = false := by
  induction items with
  | nil => left; simp
  | cons i rest ih =>
    by_cases hok : shouldDiscard i = true ∨ sink i = true
    · rcases ih with h | ⟨pre, k, post, heq, hpre, hk1, hk2⟩
      · left
        intro j hj
        rcases List.mem_cons.mp hj with rfl | hj2
        · exact hok
        · exact h j hj2
      · right
        refine ⟨i :: pre, k, post, by simp [heq], ?_, hk1, hk2⟩
        intro j hj
        rcases List.mem_cons.mp hj with rfl | hj2
        · exact hok
        · exact hpre j hj2
    · right
      push_neg at hok
      exact ⟨[], i, rest, rfl, by simp,
        Bool.not_eq_true _ ▸ Bool.eq_false_iff.mpr (fun hcon => hok.1 hcon),
        Bool.eq_false_iff.mpr (fun hcon => hok.2 hcon)⟩

lemma applyMut_dequeue_not_mem (l : List QueueItem) (n : Nat)
    (h : n ∉ l.map QueueItem.id) :
    applyMut l (.dequeueId n) = l := by
  induction l with
  | nil => rfl
  | cons x xs ih =>
    simp only [List.map_cons, List.mem_cons] at h
    push_neg at h
    simp only [applyMut] at ih ⊢
    rw [List.filter_cons]
    have : (decide (x.id ≠ n)) = true := by simp; exact fun he => h.1 he.symm
    rw [if_pos this, ih h.2]

lemma foldl_dequeue_removes (pre rest : List QueueItem)
    (hnd : ((pre ++ rest).map QueueItem.id).Nodup) :
    (pre.map (fun i => QueueMut.dequeueId i.id)).foldl applyMut (pre ++ rest) = rest := by
  induction pre generalizing rest with
  | nil => rfl
  | cons x pre' ih =>
    simp only [List.map_cons, List.cons_append, List.foldl_cons] at hnd ⊢
    rcases List.nodup_cons.mp hnd with ⟨hx, hnd'⟩
    have hstep : applyMut (x :: (pre' ++ rest)) (.dequeueId x.id) = pre' ++ rest := by
      show List.filter (fun r => decide (r.id ≠ x.id)) (x :: (pre' ++ rest)) = pre' ++ rest
      rw [List.filter_cons, if_neg (by simp)]
      exact applyMut_dequeue_not_mem _ _ hx
    rw [hstep]
    exact ih rest hnd'

lemma applyMut_bump_head (k : QueueItem) (post : List QueueItem)
    (h : k.id ∉ post.map QueueItem.id) :
    applyMut (k :: post) (.bumpRetries k.id) =
      { k with retries := k.retries + 1 } :: post := by
  simp only [applyMut, List.map_cons, if_pos rfl]
  congr 1
  induction post with
  | nil => rfl
  | cons y ys ih =>
    simp only [List.map_cons, List.mem_cons] at h
    push_neg at h
    simp only [List.map_cons]
    rw [if_neg (fun he => h.1 he.symm), ih h.2]

lemma foldl_apply_fail_split (pre post : List QueueItem) (k : QueueItem)
    (hnd : ((pre ++ k :: post).map QueueItem.id).Nodup) :
    (pre.map (fun i => QueueMut.dequeueId i.id) ++ [QueueMut.bumpRetries k.id]).foldl
        applyMut (pre ++ k :: post) =
      { k with retries := k.retries + 1 } :: post := by
  rw [List.foldl_append]
  rw [foldl_dequeue_removes pre (k :: post) hnd]
  simp only [List.foldl_cons, List.foldl_nil]
  have hk : k.id ∉ post.map QueueItem.id := by
    have h1 : (pre.map QueueItem.id ++ (k :: post).map QueueItem.id).Nodup := by
      simpa using hnd
    have h2 := (List.nodup_append.mp h1).2.1
    rw [List.map_cons, List.nodup_cons] at h2
    exact h2.1
  exact applyMut_bump_head k post hk

/-- Claim C1: when the pending list decomposes as `pre ++ k :: post` with every
item of `pre` discarded or delivered successfully, `k` not discarded and `k`'s
sink call failing, the loop dispatches exactly the non-discarded items of
`pre` followed by `k` in list order, clears the shared `available` flag,
issues only the dequeues of `pre` plus the retry bump of `k` (so `k`'s durable
record ends with its retry count incremented and every item of `post` is left
untouched: no sink call and no durable-queue mutation). -/
theorem processor_halts_on_first_failure (sink : QueueItem → Bool)
    (pre post : List QueueItem) (k : QueueItem)
    (hpre : ∀ i ∈ pre, shouldDiscard i = true ∨ sink i = true)
    (hk1 : shouldDiscard k = false) (hk2 : sink k = false)
    (hnd : ((pre ++ k :: post).map QueueItem.id).Nodup) :
    (processLoop sink (pre ++ k :: post)).calls =
      pre.filter (fun i => !(shouldDiscard i)) ++ [k] ∧
    (processLoop sink (pre ++ k :: post)).availAfter = false ∧
    (processLoop sink (pre ++ k :: post)).muts =
      pre.map (fun i => QueueMut.dequeueId i.id) ++ [QueueMut.bumpRetries k.id] ∧
    ((processLoop sink (pre ++ k :: post)).muts).foldl applyMut (pre ++ k :: post) =
      { k with retries := k.retries + 1 } :: post ∧
    (∀ j ∈ post, j ∉ (processLoop sink (pre ++ k :: post)).calls ∧
      ∀ m ∈ (processLoop sink (pre ++ k :: post)).muts,
        m ≠ .dequeueId j.id ∧ m ≠ .bumpRetries j.id) := by
  have hval := processLoop_fail_split sink pre post k hpre hk1 hk2
  rw [hval]
  refine ⟨rfl, rfl, rfl, ?_, ?_⟩
  · exact foldl_apply_fail_split pre post k hnd
  · intro j hj
    have hjid : j.id ∉ (pre ++ [k]).map QueueItem.id := by
      intro hmem
      have h1 : ((pre ++ k :: post).map QueueItem.id) =
          ((pre ++ [k]).map QueueItem.id) ++ post.map QueueItem.id := by simp
      have h2 := h1 ▸ hnd
      rcases List.nodup_append.mp h2 with ⟨_, _, hdisj⟩
      exact hdisj hmem (List.mem_map_of_mem QueueItem.id hj)
    constructor
    · intro hjc
      apply hjid
      rcases List.mem_append.mp hjc with hjf | hjk
      · exact List.mem_map_of_mem QueueItem.id
          (List.mem_append.mpr (Or.inl (List.mem_of_mem_filter hjf)))
      · simp at hjk
        subst hjk
        exact List.mem_map_of_mem QueueItem.id (by simp)
    · intro m hm
      rcases List.mem_append.mp hm with hmp | hmk
      · rcases List.mem_map.mp hmp with ⟨i, hi, rfl⟩
        constructor
        · intro hcon
          have : i.id = j.id := by injection hcon
          exact hjid (this ▸ List.mem_map_of_mem QueueItem.id
            (List.mem_append.mpr (Or.inl hi)))
        · intro hcon; cases hcon
      · simp at hmk
        subst hmk
        constructor
        · intro hcon; cases hcon
        · intro hcon
          have : k.id = j.id := by injection hcon
          exact hjid (this ▸ List.mem_map_of_mem QueueItem.id (by simp))

/-- Witness for `processor_halts_on_first_failure`: with a sink accepting only
item 1, the tick over items 1, 7, 9 ends with the flag cleared. -/
theorem processor_halts_witness :
    shouldDiscard (QueueItem.mk 7 .update "b.md" "x" 0 2) = false ∧
    (processLoop (fun it => decide (it.id = 1))
      ([QueueItem.mk 1 .create "a.md" "" 0 1] ++
        QueueItem.mk 7 .update "b.md" "x" 0 2 :: [QueueItem.mk 9 .delete "c.md" "" 0 3])).availAfter = false :=
  ⟨rfl,
    (processor_halts_on_first_failure (fun it => decide (it.id = 1))
      [QueueItem.mk 1 .create "a.md" "" 0 1]
      [QueueItem.mk 9 .delete "c.md" "" 0 3]
      (QueueItem.mk 7 .update "b.md" "x" 0 2)
      (by decide) (by decide) (by decide) (by decide)).2.1⟩

lemma dequeueCount_map_ids (l : List QueueItem) (n : Nat) :
    dequeueCount (l.map (fun i => QueueMut.dequeueId i.id)) n =
      (l.map QueueItem.id).count n := by
  simp only [dequeueCount, List.countP_map, List.count, List.countP_map]
  refine List.countP_congr (fun i _ => ?_)
  simp [Function.comp, QueueMut.dequeueId.injEq]

lemma dequeueCount_fail_muts (pre : List QueueItem) (k : QueueItem) (n : Nat) :
    dequeueCount (pre.map (fun i => QueueMut.dequeueId i.id) ++
        [QueueMut.bumpRetries k.id]) n =
      (pre.map QueueItem.id).count n := by
  simp only [dequeueCount, List.countP_append]
  rw [← dequeueCount_map_ids pre n]
  simp [dequeueCount]

/-- Claim C3: `shouldDiscard` holds iff the retry count has reached 50; in one
processor tick an item's durable record is dequeued at most once, a discarded
item is dequeued without a sink call, a record is dequeued only after a
confirmed sink success or a discard, and a record that is not dequeued stays
in durable storage with a non-decreasing retry count. -/
theorem queue_discard_and_removal (sink : QueueItem → Bool) (items : List QueueItem)
    (hnd : (items.map QueueItem.id).Nodup) :
    (∀ it : QueueItem, shouldDiscard it = true ↔ 50 ≤ it.retries) ∧
    (∀ i ∈ items, shouldDiscard i = true → i ∉ (processLoop sink items).calls) ∧
    (∀ i ∈ items, dequeueCount (processLoop sink items).muts i.id ≤ 1) ∧
    (∀ i ∈ items, dequeueCount (processLoop sink items).muts i.id = 1 →
      shouldDiscard i = true ∨ sink i = true) ∧
    (∀ i ∈ items, dequeueCount (processLoop sink items).muts i.id = 0 →
      ∃ r ∈ (processLoop sink items).muts.foldl applyMut items,
        r.id = i.id ∧ i.retries ≤ r.retries) := by
  have hiff : ∀ it : QueueItem, shouldDiscard it = true ↔ 50 ≤ it.retries := by
    intro it
    simp [shouldDiscard, MAX_RETRIES]
  have hinj : ∀ a ∈ items, ∀ b ∈ items, a.id = b.id → a = b :=
    List.inj_on_of_nodup_map hnd
  rcases processLoop_cases sink items with hall | ⟨pre, k, post, heq, hpre, hk1, hk2⟩
  · rw [processLoop_all_ok sink items hall]
    refine ⟨hiff, ?_, ?_, ?_, ?_⟩
    · intro i _ hdisc hmem
      have := (List.mem_filter.mp hmem).2
      rw [hdisc] at this
      simp at this
    · intro i hi
      rw [dequeueCount_map_ids]
      exact (List.nodup_iff_count_le_one.mp hnd) i.id
    · intro i hi _
      exact hall i hi
    · intro i hi hzero
      rw [dequeueCount_map_ids] at hzero
      have : i.id ∈ items.map QueueItem.id := List.mem_map_of_mem QueueItem.id hi
      rw [List.count_eq_one_of_mem hnd this] at hzero
      cases hzero
  · subst heq
    have hvals := processLoop_fail_split sink pre post k hpre hk1 hk2
    rw [hvals]
    have hndpre : (pre.map QueueItem.id).Nodup := by
      have h1 : (pre.map QueueItem.id ++ (k :: post).map QueueItem.id).Nodup := by
        simpa using hnd
      exact (List.nodup_append.mp h1).1
    refine ⟨hiff, ?_, ?_, ?_, ?_⟩
    · intro i _ hdisc hmem
      rcases List.mem_append.mp hmem with hf | hk
      · have := (List.mem_filter.mp hf).2
        rw [hdisc] at this
        simp at this
      · simp at hk
        subst hk
        rw [hk1] at hdisc
        cases hdisc
    · intro i _
      rw [dequeueCount_fail_muts]
      exact (List.nodup_iff_count_le_one.mp hndpre) i.id
    · intro i hi hone
      rw [dequeueCount_fail_muts] at hone
      have hidmem : i.id ∈ pre.map QueueItem.id :=
        List.count_pos_iff.mp (by omega)
      rcases List.mem_map.mp hidmem with ⟨j, hj, hjid⟩
      have : j = i := hinj j (by simp [hj]) i hi hjid
      subst this
      exact hpre j hj
    · intro i hi hzero
      rw [dequeueCount_fail_muts] at hzero
      rw [foldl_apply_fail_split pre post k hnd]
      have hnotpre : i ∉ pre := by
        intro hipre
        have : i.id ∈ pre.map QueueItem.id := List.mem_map_of_mem QueueItem.id hipre
        have := List.count_pos_iff.mpr this
        omega
      rcases List.mem_append.mp hi with hipre | hik
      · exact absurd hipre hnotpre
      · rcases List.mem_cons.mp hik with rfl | hipost
        · exact ⟨{ i with retries := i.retries + 1 }, List.mem_cons_self _ _,
            rfl, Nat.le_succ _⟩
        · exact ⟨i, List.mem_cons_of_mem _ hipost, rfl, Nat.le_refl _⟩

/-- Witness for `queue_discard_and_removal`: a two-item queue where the first
item is at the discard threshold and the second succeeds. -/
theorem queue_discard_and_removal_witness :
    ((([QueueItem.mk 4 .create "a.md" "" 50 1,
        QueueItem.mk 6 .update "b.md" "y" 2 2] : List QueueItem).map QueueItem.id).Nodup) ∧
    (shouldDiscard (QueueItem.mk 4 .create "a.md" "" 50 1) = true ↔
      50 ≤ (QueueItem.mk 4 .create "a.md" "" 50 1).retries) :=
  ⟨by decide,
    (queue_discard_and_removal (fun _ => true)
      [QueueItem.mk 4 .create "a.md" "" 50 1, QueueItem.mk 6 .update "b.md" "y" 2 2]
      (by decide)).1 (QueueItem.mk 4 .create "a.md" "" 50 1)⟩

/-! ### Slug derivation (C9) -/

lemma toLower_isUpper_false (c : Char) : (Char.toLower c).isUpper = false := by
  simp only [Char.toLower]
  split
  · rename_i h
    have hv : Nat.isValidChar (c.toNat + 32) := by left; omega
    have ht : (Char.ofNat (c.toNat + 32)).toNat = c.toNat + 32 := by
      rw [Char.ofNat, dif_pos hv]
      simp [Char.ofNatAux, Char.toNat, UInt32.toNat]
    simp only [Char.isUpper]
    rw [Bool.and_eq_false_iff]
    right
    rw [decide_eq_false_iff_not]
    intro hcon
    have h90 : (Char.ofNat (c.toNat + 32)).val.toNat ≤ 90 :=
      UInt32.toNat_le_of_le (by decide) hcon
    have ht' : (Char.ofNat (c.toNat + 32)).val.toNat = c.toNat + 32 := ht
    omega
  · rename_i h
    simp only [Char.isUpper]
    rw [Bool.and_eq_false_iff]
    by_cases h65 : 65 ≤ c.toNat
    · right
      rw [decide_eq_false_iff_not]
      intro hcon
      have h90 : c.val.toNat ≤ 90 := UInt32.toNat_le_of_le (by decide) hcon
      have h90' : c.toNat ≤ 90 := h90
      exact h ⟨h65, h90'⟩
    · left
      rw [decide_eq_false_iff_not]
      intro hcon
      have h65' : (65 : Nat) ≤ c.val.toNat := UInt32.le_toNat_of_le (by decide) hcon
      exact h65 h65'

lemma truncateSlug_length (l : List Char) : (truncateSlug l).length ≤ 40 := by
  unfold truncateSlug
  split
  · rename_i h; exact h
  · rcases hmatch : lastIdxOf '-' (l.take 40) with _ | i <;> simp only [hmatch]
    · simp only [List.length_take]; omega
    · by_cases hi : 10 < i
      · rw [if_pos hi]; simp only [List.length_take]; omega
      · rw [if_neg hi]; simp only [List.length_take]; omega

lemma truncateSlug_sub (l : List Char) : ∀ c ∈ truncateSlug l, c ∈ l := by
  intro c hc
  unfold truncateSlug at hc
  split at hc
  · exact hc
  · rcases hmatch : lastIdxOf '-' (l.take 40) with _ | i <;> simp only [hmatch] at hc
    · exact List.take_subset _ _ hc
    · by_cases hi : 10 < i
      · rw [if_pos hi] at hc
        exact List.take_subset _ _ (List.take_subset _ _ hc)
      · rw [if_neg hi] at hc
        exact List.take_subset _ _ hc

lemma dropLast_sub (l : List Char) : ∀ c ∈ l.dropLast, c ∈ l := by
  intro c hc
  have h1 : c ∈ l.dropLast.reverse := by simpa using hc
  rw [← List.tail_reverse] at h1
  have h2 := List.tail_subset _ h1
  simpa using h2

lemma trimOneDashes_sub (l : List Char) : ∀ c ∈ trimOneDashes l, c ∈ l := by
  intro c hc
  unfold trimOneDashes stripTrailDash stripLeadDash at hc
  have step : ∀ x : List Char, c ∈ (if x.getLast? = some '-' then x.dropLast else x) → c ∈ x := by
    intro x hx
    split at hx
    · exact dropLast_sub x c hx
    · exact hx
  split at hc
  · exact List.tail_subset _ (step _ hc)
  · exact step _ hc

lemma collapseDashes_sub (l : List Char) : ∀ c ∈ collapseDashes l, c ∈ l := by
  intro c
  induction l with
  | nil => simp [collapseDashes]
  | cons a t ih =>
    cases t with
    | nil => simp [collapseDashes]
    | cons b r =>
      simp only [collapseDashes]
      split
      · intro hc
        exact List.mem_cons_of_mem a (ih hc)
      · intro hc
        rcases List.mem_cons.mp hc with rfl | h2
        · exact List.mem_cons_self _ _
        · exact List.mem_cons_of_mem a (ih h2)

lemma joinDash_mem (ws : List (List Char)) (c : Char) (h : c ∈ joinDash ws) :
    c = '-' ∨ ∃ w ∈ ws, c ∈ w := by
  induction ws with
  | nil => simp [joinDash] at h
  | cons w vs ih =>
    cases vs with
    | nil =>
      right
      exact ⟨w, by simp, by simpa [joinDash] using h⟩
    | cons v vs' =>
      simp only [joinDash] at h
      rcases List.mem_append.mp h with h1 | h2
      · right; exact ⟨w, by simp, h1⟩
      · rcases List.mem_cons.mp h2 with rfl | h3
        · left; rfl
        · rcases ih h3 with hd | ⟨u, hu, hcu⟩
          · left; exact hd
          · right; exact ⟨u, by simp [hu], hcu⟩

lemma wordsAux_mem (l : List Char) : ∀ (acc w : List Char), w ∈ wordsAux acc l →
    ∀ c ∈ w, c ∈ acc ∨ c ∈ l := by
  induction l with
  | nil =>
    intro acc w hw c hc
    simp only [wordsAux] at hw
    split at hw
    · simp at hw
    · simp only [List.mem_singleton] at hw
      subst hw
      left
      simpa using hc
  | cons d t ih =>
    intro acc w hw c hc
    simp only [wordsAux] at hw
    split at hw
    · split at hw
      · rcases ih [] w hw c hc with h | h
        · simp at h
        · right; exact List.mem_cons_of_mem d h
      · rcases List.mem_cons.mp hw with rfl | hw2
        · left; simpa using hc
        · rcases ih [] w hw2 c hc with h | h
          · simp at h
          · right; exact List.mem_cons_of_mem d h
    · rcases ih (d :: acc) w hw c hc with h | h
      · rcases List.mem_cons.mp h with rfl | h2
        · right; exact List.mem_cons_self _ _
        · left; exact h2
      · right; exact List.mem_cons_of_mem d h

lemma filteredWords_spec (raw : String) :
    ∀ w ∈ filteredWords raw,
      stopWordsHooks.contains (String.mk w) = false ∧ 0 < w.length ∧
      ∀ c ∈ w, UNSAFE_CHARS.contains c = false ∧ c.isUpper = false := by
  intro w hw
  unfold filteredWords at hw
  rcases List.mem_filter.mp hw with ⟨hmem, hcond⟩
  rw [Bool.and_eq_true] at hcond
  refine ⟨by simpa using hcond.2, by simpa using hcond.1, ?_⟩
  intro c hc
  rcases wordsAux_mem _ [] w hmem c hc with h | h
  · simp at h
  · rcases List.mem_filter.mp h with ⟨hlow, hstrip⟩
    refine ⟨by simpa using hstrip, ?_⟩
    rcases List.mem_map.mp hlow with ⟨c0, _, rfl⟩
    exact toLower_isUpper_false c0

lemma noDoubleDash_tail (a : Char) (l : List Char) (h : noDoubleDash (a :: l) = true) :
    noDoubleDash l = true := by
  cases l with
  | nil => rfl
  | cons b r =>
    simp only [noDoubleDash, Bool.and_eq_true] at h
    exact h.2

lemma collapse_head (r : List Char) : ∀ d : Char, ∃ t, collapseDashes (d :: r) = d :: t := by
  induction r with
  | nil => exact fun d => ⟨[], rfl⟩
  | cons e r' ih =>
    intro d
    simp only [collapseDashes]
    split
    · rename_i hcond
      rcases ih e with ⟨t, ht⟩
      rw [Bool.and_eq_true, decide_eq_true_eq, decide_eq_true_eq] at hcond
      exact ⟨t, by rw [ht, hcond.1, hcond.2]⟩
    · exact ⟨collapseDashes (e :: r'), rfl⟩

lemma noDoubleDash_collapse (l : List Char) : noDoubleDash (collapseDashes l) = true := by
  induction l with
  | nil => rfl
  | cons a t ih =>
    cases t with
    | nil => rfl
    | cons b r =>
      simp only [collapseDashes]
      split
      · exact ih
      · rename_i hcond
        rcases collapse_head r b with ⟨u, hu⟩
        rw [hu]
        simp only [noDoubleDash, Bool.and_eq_true]
        refine ⟨?_, by rw [← hu]; exact ih⟩
        by_cases ha : a = '-'
        · by_cases hb : b = '-'
          · exact absurd (by simp [ha, hb]) hcond
          · simp [hb]
        · simp [ha]

lemma noDoubleDash_iff_chain (l : List Char) :
    noDoubleDash l = true ↔ l.Chain' (fun a b => ¬(a = '-' ∧ b = '-')) := by
  induction l with
  | nil => simp [noDoubleDash]
  | cons a t ih =>
    cases t with
    | nil => simp [noDoubleDash]
    | cons b r =>
      rw [List.chain'_cons, ← ih]
      constructor
      · intro hnd
        simp only [noDoubleDash, Bool.and_eq_true] at hnd
        refine ⟨?_, hnd.2⟩
        rintro ⟨ha, hb⟩
        subst ha
        subst hb
        simp at hnd
      · rintro ⟨h1, h2⟩
        simp only [noDoubleDash, Bool.and_eq_true]
        refine ⟨?_, h2⟩
        by_cases ha : a = '-'
        · by_cases hb : b = '-'
          · exact absurd ⟨ha, hb⟩ h1
          · subst ha
            simp [hb]
        · simp [ha]

lemma noDoubleDash_reverse (l : List Char) :
    noDoubleDash l.reverse = noDoubleDash l := by
  have h1 := noDoubleDash_iff_chain l.reverse
  have h2 := noDoubleDash_iff_chain l
  have h3 : l.reverse.Chain' (fun a b => ¬(a = '-' ∧ b = '-')) ↔
      l.Chain' (fun a b => ¬(a = '-' ∧ b = '-')) := by
    rw [List.chain'_reverse]
    constructor
    · exact fun h => h.imp (fun a b hab => fun hc => hab ⟨hc.2, hc.1⟩)
    · exact fun h => h.imp (fun a b hab => fun hc => hab ⟨hc.2, hc.1⟩)
  by_cases hb : noDoubleDash l = true
  · rw [hb]
    exact h1.mpr (h3.mpr (h2.mp hb))
  · have hbf : noDoubleDash l = false := by simpa using hb
    rw [hbf]
    by_cases hr : noDoubleDash l.reverse = true
    · exact absurd (h2.mpr (h3.mp (h1.mp hr))) hb
    · simpa using hr

lemma stripLeadDash_props (l : List Char) (h : noDoubleDash l = true) :
    (stripLeadDash l).head? ≠ some '-' ∧ noDoubleDash (stripLeadDash l) = true := by
  unfold stripLeadDash
  by_cases hh : l.head? = some '-'
  · rw [if_pos hh]
    cases l with
    | nil => simp at hh
    | cons a t =>
      have ha : a = '-' := by simpa using hh
      subst ha
      refine ⟨?_, noDoubleDash_tail _ t h⟩
      cases t with
      | nil => simp
      | cons b r =>
        simp only [List.tail_cons, List.head?_cons, ne_eq, Option.some.injEq]
        intro hb
        subst hb
        simp [noDoubleDash] at h
  · rw [if_neg hh]
    exact ⟨hh, h⟩

lemma stripLeadDash_getLast (l : List Char) (h : l.getLast? ≠ some '-') :
    (stripLeadDash l).getLast? ≠ some '-' := by
  unfold stripLeadDash
  split
  · cases l with
    | nil => simp
    | cons a t =>
      cases t with
      | nil => simp
      | cons b r => simpa [List.getLast?_cons_cons] using h
  · exact h

lemma stripTrail_eq_reverse (l : List Char) :
    stripTrailDash l = (stripLeadDash l.reverse).reverse := by
  unfold stripTrailDash stripLeadDash
  rw [List.head?_reverse]
  by_cases h : l.getLast? = some '-'
  · rw [if_pos h, if_pos h, List.tail_reverse, List.reverse_reverse]
  · rw [if_neg h, if_neg h, List.reverse_reverse]

lemma trimOneDashes_props (l : List Char) (h : noDoubleDash l = true) :
    (trimOneDashes l).head? ≠ some '-' ∧ (trimOneDashes l).getLast? ≠ some '-' ∧
    noDoubleDash (trimOneDashes l) = true := by
  unfold trimOneDashes
  rcases stripLeadDash_props l h with ⟨h1a, h1b⟩
  have h2 : noDoubleDash (stripLeadDash l).reverse = true := by
    rw [noDoubleDash_reverse]; exact h1b
  rcases stripLeadDash_props (stripLeadDash l).reverse h2 with ⟨hs_head, hs_nd⟩
  rw [stripTrail_eq_reverse]
  refine ⟨?_, ?_, ?_⟩
  · rw [List.head?_reverse]
    apply stripLeadDash_getLast
    rw [List.getLast?_reverse]
    exact h1a
  · rw [List.getLast?_reverse]
    exact hs_head
  · rw [noDoubleDash_reverse]
    exact hs_nd

/-- Claim C9: `sessionSlug` is the lowercasing/stripping/stopword pipeline on
the title (with the stored slug and the 12-character id front as fallbacks)
joined by dashes and length-capped: every kept word is a nonempty non-stop
word, the result has at most 40 characters and contains no filesystem-unsafe
or uppercase character, and the joined string has single dashes with no
leading or trailing dash. -/
theorem slug_wellformed (s : SlugInput) :
    sessionSlug s = String.mk (truncateSlug (trimOneDashes (collapseDashes
      (joinDash (filteredWords (rawTitle s.title s.slugF s.id)))))) ∧
    (sessionSlug s).length ≤ 40 ∧
    (∀ w ∈ filteredWords (rawTitle s.title s.slugF s.id),
      stopWordsHooks.contains (String.mk w) = false ∧ 0 < w.length) ∧
    (∀ c ∈ (sessionSlug s).data,
      UNSAFE_CHARS.contains c = false ∧ c.isUpper = false) ∧
    ((trimOneDashes (collapseDashes (joinDash
        (filteredWords (rawTitle s.title s.slugF s.id))))).head? ≠ some '-' ∧
     (trimOneDashes (collapseDashes (joinDash
        (filteredWords (rawTitle s.title s.slugF s.id))))).getLast? ≠ some '-' ∧
     noDoubleDash (trimOneDashes (collapseDashes (joinDash
        (filteredWords (rawTitle s.title s.slugF s.id))))) = true) := by
  refine ⟨rfl, ?_, ?_, ?_, ?_⟩
  · have hlen : (sessionSlug s).length =
        (truncateSlug (trimOneDashes (collapseDashes
          (joinDash (filteredWords (rawTitle s.title s.slugF s.id)))))).length := rfl
    rw [hlen]
    exact truncateSlug_length _
  · intro w hw
    rcases filteredWords_spec _ w hw with ⟨h1, h2, _⟩
    exact ⟨h1, h2⟩
  · intro c hc
    have hc1 : c ∈ truncateSlug (trimOneDashes (collapseDashes
        (joinDash (filteredWords (rawTitle s.title s.slugF s.id))))) := hc
    have hc2 := trimOneDashes_sub _ c (truncateSlug_sub _ c hc1)
    have hc3 := collapseDashes_sub _ c hc2
    rcases joinDash_mem _ c hc3 with rfl | ⟨w, hw, hcw⟩
    · exact ⟨by decide, by decide⟩
    · exact (filteredWords_spec _ w hw).2.2 c hcw
  · exact trimOneDashes_props _ (noDoubleDash_collapse _)

/-- Witness for `slug_wellformed`: for the title `Fix it`, the kept word `fix`
is not a stop word. -/
theorem slug_wellformed_witness :
    (['f', 'i', 'x'] ∈ filteredWords (rawTitle (some "Fix it") none "s1")) ∧
    stopWordsHooks.contains (String.mk ['f', 'i', 'x']) = false :=
  ⟨by decide,
    ((slug_wellformed ⟨some "Fix it", none, "s1"⟩).2.2.1 ['f', 'i', 'x'] (by decide)).1⟩

/-! ### Document splitting (C10) -/

lemma splitSectionsAux_flatten (l : List String) : ∀ acc : List String,
    (splitSectionsAux acc l).flatten = acc.reverse ++ l := by
  induction l with
  | nil => intro acc; simp [splitSectionsAux]
  | cons x t ih =>
    intro acc
    simp only [splitSectionsAux]
    split
    · simp [ih [x]]
    · simpa using ih (x :: acc)

lemma splitSections_flatten (body : List String) : (splitSections body).flatten = body := by
  cases body with
  | nil => rfl
  | cons l ls => simpa using splitSectionsAux_flatten ls [l]

lemma headD_append_tail_flatten (L : List (List String)) :
    L.headD [] ++ L.tail.flatten = L.flatten := by
  cases L <;> simp

lemma range_chunks_flatten (k : Nat) (_hk : 0 < k) :
    ∀ (t : Nat) (l : List (List String)), l.length ≤ t * k →
    ((List.range t).map (fun i => (l.drop (i * k)).take k)).flatten = l := by
  intro t
  induction t with
  | zero =>
    intro l hl
    have : l = [] := List.eq_nil_of_length_eq_zero (by omega)
    subst this
    rfl
  | succ t ih =>
    intro l hl
    rw [List.range_succ_eq_map]
    simp only [List.map_cons, List.map_map, List.flatten_cons]
    have hcomp : (List.range t).map ((fun i => (l.drop (i * k)).take k) ∘ Nat.succ) =
        (List.range t).map (fun i => ((l.drop k).drop (i * k)).take k) := by
      apply List.map_congr_left
      intro i _
      simp only [Function.comp]
      rw [List.drop_drop]
      have hidx : Nat.succ i * k = k + i * k := by
        rw [Nat.succ_mul]
        omega
      rw [hidx]
    have hrec : (l.drop k).length ≤ t * k := by
      have hmul : (t + 1) * k = t * k + k := by
        rw [Nat.add_mul, Nat.one_mul]
      simp only [List.length_drop]
      omega
    rw [hcomp, ih (l.drop k) hrec]
    simp

lemma le_ceil_mul (n k : Nat) (hk : 0 < k) : n ≤ ((n + k - 1) / k) * k := by
  have hdm := Nat.div_add_mod (n + k - 1) k
  have hmlt : (n + k - 1) % k < k := Nat.mod_lt _ hk
  have hcomm : ((n + k - 1) / k) * k = k * ((n + k - 1) / k) := Nat.mul_comm _ _
  omega

lemma flatten_map_flatten (L : List (List (List String))) :
    (L.map List.flatten).flatten = L.flatten.flatten := by
  rw [List.flatten_flatten]

lemma splitParts_get (fm header : List String) (secs : List (List String)) (maxM : Nat)
    (i : Nat) (h : i < (splitParts fm header secs maxM).length) :
    (splitParts fm header secs maxM).get ⟨i, h⟩ =
      ⟨"---" :: ((fm ++ [s!"part: {i + 1}",
          s!"total_parts: {(secs.length + maxM - 1) / maxM}"]) ++
        ("---" :: ((if i = 0 then header else []) ++
          ((secs.drop (i * maxM)).take maxM).flatten))),
        i + 1, (secs.length + maxM - 1) / maxM⟩ := by
  simp only [splitParts, List.get_eq_getElem, List.getElem_map, List.getElem_range]

lemma splitParts_bodies (fm header : List String) (secs : List (List String)) (maxM : Nat)
    (hk : 0 < maxM) (hgt : maxM < secs.length) :
    ((splitParts fm header secs maxM).map
      (fun p => p.markdown.drop (fm.length + 4))).flatten = header ++ secs.flatten := by
  unfold splitParts
  rw [List.map_map]
  have hpt : ((List.range ((secs.length + maxM - 1) / maxM)).map
      ((fun p : SplitResult => p.markdown.drop (fm.length + 4)) ∘
        (fun i =>
          (⟨"---" :: ((fm ++ [s!"part: {i + 1}",
              s!"total_parts: {(secs.length + maxM - 1) / maxM}"]) ++
            ("---" :: ((if i = 0 then header else []) ++
              ((secs.drop (i * maxM)).take maxM).flatten))),
            i + 1, (secs.length + maxM - 1) / maxM⟩ : SplitResult)))) =
      (List.range ((secs.length + maxM - 1) / maxM)).map
        (fun i => (if i = 0 then header else []) ++
          ((secs.drop (i * maxM)).take maxM).flatten) := by
    apply List.map_congr_left
    intro i _
    simp only [Function.comp]
    have hsplit : "---" :: ((fm ++ [s!"part: {i + 1}",
        s!"total_parts: {(secs.length + maxM - 1) / maxM}"]) ++
        ("---" :: ((if i = 0 then header else []) ++
          ((secs.drop (i * maxM)).take maxM).flatten))) =
        ("---" :: (fm ++ [s!"part: {i + 1}",
          s!"total_parts: {(secs.length + maxM - 1) / maxM}"]) ++ ["---"]) ++
        ((if i = 0 then header else []) ++
          ((secs.drop (i * maxM)).take maxM).flatten) := by
      simp
    rw [hsplit]
    exact List.drop_left' (by simp)
  rw [hpt]
  have hT1 : 1 ≤ (secs.length + maxM - 1) / maxM := by
    rw [Nat.le_div_iff_mul_le hk]
    omega
  obtain ⟨t, ht⟩ : ∃ t, (secs.length + maxM - 1) / maxM = t + 1 :=
    ⟨(secs.length + maxM - 1) / maxM - 1, by omega⟩
  have hsecs : ((List.range ((secs.length + maxM - 1) / maxM)).map
      (fun i => ((secs.drop (i * maxM)).take maxM).flatten)).flatten = secs.flatten := by
    have h1 := range_chunks_flatten maxM hk ((secs.length + maxM - 1) / maxM) secs
      (le_ceil_mul secs.length maxM hk)
    calc ((List.range ((secs.length + maxM - 1) / maxM)).map
           (fun i => ((secs.drop (i * maxM)).take maxM).flatten)).flatten
        = (((List.range ((secs.length + maxM - 1) / maxM)).map
            (fun i => (secs.drop (i * maxM)).take maxM)).map List.flatten).flatten := by
          rw [List.map_map]; rfl
      _ = ((List.range ((secs.length + maxM - 1) / maxM)).map
            (fun i => (secs.drop (i * maxM)).take maxM)).flatten.flatten :=
          flatten_map_flatten _
      _ = secs.flatten := by rw [h1]
  rw [ht] at hsecs ⊢
  rw [List.range_succ_eq_map] at hsecs ⊢
  simp only [List.map_cons, List.map_map, List.flatten_cons, Nat.zero_mul, List.drop_zero,
    if_pos rfl] at hsecs ⊢
  have hrest : ((List.range t).map
      ((fun i => (if i = 0 then header else []) ++
        ((secs.drop (i * maxM)).take maxM).flatten) ∘ Nat.succ)) =
      (List.range t).map
        ((fun i => ((secs.drop (i * maxM)).take maxM).flatten) ∘ Nat.succ) := by
    apply List.map_congr_left
    intro i _
    simp [Function.comp, Nat.succ_ne_zero]
  rw [hrest, List.append_assoc, hsecs]
  simp

/-- Claim C10: with a positive bound, `splitIfNeeded` returns the document
unchanged as a single part (`partNumber = totalParts = 1`) when there is no
frontmatter block or at most `maxMessages` message sections; otherwise it
returns `ceil(sections / maxMessages)` parts whose `partNumber` fields run
`1..totalParts` in order, whose `totalParts` fields all equal the number of
parts, and whose bodies — header section kept in part 1 — concatenate back to
the original body. -/
theorem split_if_needed_parts (markdown : List String) (maxM : Nat) (hpos : 0 < maxM) :
    (matchFrontmatter markdown = none →
      splitIfNeeded markdown maxM = [⟨markdown, 1, 1⟩]) ∧
    (∀ fm body, matchFrontmatter markdown = some (fm, body) →
      ((splitSections body).tail.length ≤ maxM →
        splitIfNeeded markdown maxM = [⟨markdown, 1, 1⟩]) ∧
      (maxM < (splitSections body).tail.length →
        (splitIfNeeded markdown maxM).length =
          ((splitSections body).tail.length + maxM - 1) / maxM ∧
        (∀ i (h : i < (splitIfNeeded markdown maxM).length),
          ((splitIfNeeded markdown maxM).get ⟨i, h⟩).partNumber = i + 1 ∧
          ((splitIfNeeded markdown maxM).get ⟨i, h⟩).totalParts =
            (splitIfNeeded markdown maxM).length) ∧
        ((splitIfNeeded markdown maxM).map
          (fun p => p.markdown.drop (fm.length + 4))).flatten = body)) := by
  constructor
  · intro hnone
    simp [splitIfNeeded, hnone]
  · intro fm body hsome
    constructor
    · intro hle
      simp only [splitIfNeeded, hsome]
      rw [if_pos hle]
    · intro hgt
      have hne : ¬ ((splitSections body).tail.length ≤ maxM) := by omega
      have hval : splitIfNeeded markdown maxM =
          splitParts fm ((splitSections body).headD []) ((splitSections body).tail) maxM := by
        simp only [splitIfNeeded, hsome]
        rw [if_neg hne]
      have hlen : (splitIfNeeded markdown maxM).length =
          (((splitSections body).tail.length + maxM - 1) / maxM) := by
        rw [hval]
        simp [splitParts]
      refine ⟨hlen, ?_, ?_⟩
      · intro i h
        rw [List.get_of_eq hval ⟨i, h⟩, splitParts_get]
        exact ⟨rfl, hlen.symm⟩
      · rw [hval, splitParts_bodies fm _ _ maxM hpos hgt,
          headD_append_tail_flatten, splitSections_flatten]

/-- Witness for `split_if_needed_parts`: a document with three message
sections split with bound 2 yields two parts. -/
theorem split_if_needed_parts_witness :
    (0 < 2) ∧
    (splitIfNeeded ["---", "tags: []", "---", "# Log", "### User (a)", "m1",
      "### Assistant (b)", "m2", "### User (c)", "m3"] 2).length = (3 + 2 - 1) / 2 :=
  ⟨by decide,
    (((split_if_needed_parts ["---", "tags: []", "---", "# Log", "### User (a)", "m1",
        "### Assistant (b)", "m2", "### User (c)", "m3"] 2 (by decide)).2
      ["tags: []"] ["# Log", "### User (a)", "m1", "### Assistant (b)", "m2",
        "### User (c)", "m3"] (by decide)).2 (by decide)).1⟩

end Spec2Proof
